import Mathlib

/-!
Verification of the XiaoCaiChat server (`chat_server.py`) and the chunked
file-transfer logic of its Qt client (`qt_chat_client.py`), against the
natural-language specification.

The Python code is shallowly embedded: each relevant Python function is
translated into an executable Lean definition operating on explicit state.
Sockets are modelled by natural-number connection ids; a `sendall` on a
socket is modelled as an element of a list of (connection, payload) writes.
Python `int` is modelled by `Int` (both unbounded), `str` by `String`,
bytes by lists of naturals.
-/

namespace XiaoCai

/-! ## Python string primitives

Helpers mirroring the Python `str` methods used by `chat_server.py`. -/

/-- Python `str.strip()` (whitespace on both ends).  Implemented on the
character list so concrete instances reduce in the kernel. -/
def pyStrip (s : String) : String :=
  ⟨((s.data.dropWhile Char.isWhitespace).reverse.dropWhile Char.isWhitespace).reverse⟩

/-- Word accumulator for whitespace splitting (structural recursion). -/
def splitWsAux : List Char → List Char → List (List Char)
  | [], acc => if acc = [] then [] else [acc.reverse]
  | c :: t, acc =>
    if c.isWhitespace then
      if acc = [] then splitWsAux t [] else acc.reverse :: splitWsAux t []
    else splitWsAux t (c :: acc)

/-- Python `str.split()` with no arguments: split on whitespace runs,
dropping empty fragments. -/
def pySplitWs (s : String) : List String :=
  (splitWsAux s.data []).map (fun cs => ⟨cs⟩)

/-- Split a character list at single occurrences of `sep`, performing at
most `maxsplit` splits (Python `str.split(sep, maxsplit)`). -/
def splitOnCharMax (sep : Char) : Nat → List Char → List (List Char)
  | 0, cs => [cs]
  | m + 1, cs =>
    let pre := cs.takeWhile (fun x => x ≠ sep)
    match cs.dropWhile (fun x => x ≠ sep) with
    | [] => [cs]
    | _ :: tail => pre :: splitOnCharMax sep m tail

/-- Python `str.split(" ", maxsplit)`: split on single spaces, keeping
empty fragments, with at most `maxsplit` splits performed from the left. -/
def pySplitSpMax (s : String) (maxsplit : Nat) : List String :=
  (splitOnCharMax ' ' maxsplit s.data).map (fun cs => ⟨cs⟩)

/-- Python `str.upper()` (ASCII protocol keywords only). -/
def pyUpper (s : String) : String := ⟨s.data.map Char.toUpper⟩

/-- Python `s[n:]` character slicing. -/
def pyDrop (s : String) (n : Nat) : String := ⟨s.data.drop n⟩

/-- Python `str.startswith(p)`: prefix test on the character sequence.
(`String.startsWith` has identical semantics but does not reduce in the
kernel; this formulation keeps concrete instances decidable.) -/
def pyStartsWith (s p : String) : Bool := s.data.take p.data.length = p.data

/-- Python `int(s)` as a partial function: optional sign followed by digits
(surrounding whitespace tolerated); `none` models a raised `ValueError`.
(Python's underscore digit grouping is not modelled; no protocol field
uses it.) -/
def pyInt (s : String) : Option Int :=
  let t := (pyStrip s).data
  let core := if t.getD 0 ' ' = '-' ∨ t.getD 0 ' ' = '+' then t.drop 1 else t
  if core ≠ [] ∧ core.all Char.isDigit then
    let n : Nat := core.foldl (fun a c => a * 10 + (c.toNat - 48)) 0
    if t.getD 0 ' ' = '-' then some (-(n : Int)) else some (n : Int)
  else none

/-! ## Conversation ids (`conv_group`, `conv_dm` in `chat_server.py`)

`conv_dm` mirrors `sorted([a, b])` in CPython, which compares `b < a`
and swaps exactly when that holds; Python string `<` is lexicographic
on code points, as is Lean's `String` order. -/

def conv_group (room : String) : String := "group:" ++ room

def conv_dm (a b : String) : String :=
  if b < a then "dm:" ++ b ++ "&" ++ a else "dm:" ++ a ++ "&" ++ b

/-! ## Unread counters (`UnreadStore` in `chat_server.py`, in-memory backing)

`self._mem` is a dict user → (dict conv → int); an absent entry is read
as `0` via `m.get(conv, 0)`.  Modelled as a function into `Option Int`
(`none` = key absent), so "absent" and "stored zero" stay distinct. -/

def UnreadMem : Type := String → String → Option Int

/-- The store as constructed: no counters present. -/
def unreadInit : UnreadMem := fun _ _ => none

/-- `UnreadStore.inc`: `m[conv] = m.get(conv, 0) + 1`. -/
def unreadInc (s : UnreadMem) (user conv : String) : UnreadMem :=
  fun u c => if u = user ∧ c = conv then some ((s user conv).getD 0 + 1) else s u c

/-- `UnreadStore.reset`: `m[conv] = 0`. -/
def unreadReset (s : UnreadMem) (user conv : String) : UnreadMem :=
  fun u c => if u = user ∧ c = conv then some 0 else s u c

/-- A client-visible operation on the unread store. -/
inductive UnreadOp
  | inc (user conv : String)
  | reset (user conv : String)

def applyUnreadOp (s : UnreadMem) : UnreadOp → UnreadMem
  | .inc u c => unreadInc s u c
  | .reset u c => unreadReset s u c

def applyUnreadOps (s : UnreadMem) (ops : List UnreadOp) : UnreadMem :=
  ops.foldl applyUnreadOp s

/-! ## Persistence (`save_message` in `chat_server.py`)

Returns the row inserted into the `messages` table, or `none` when the
payload is skipped (file-chunk/ack fragments and oversized payloads). -/

def saveMessage (conv sender text : String) : Option (String × String × String) :=
  if pyStartsWith text "FILE_CHUNK " ∨ pyStartsWith text "FILE_ACK " then none
  else if 262144 ≤ text.length then none
  else some (conv, sender, text)

/-! ## Hub routing (`Hub.broadcast_text`, `Hub.send_dm` in `chat_server.py`)

A room's live-connection map (`self.rooms[room]`, a dict conn → username)
is modelled as an association list of (connection id, username); the dict
key uniqueness becomes a `Nodup` hypothesis on the ids.  The `sendall`
calls performed by one invocation are collected, in order, as
(connection, payload) pairs. -/

structure RouteResult where
  writes : List (Nat × String)
  saved : Option (String × String × String)
  unreadIncs : List (String × String)
deriving Repr, DecidableEq

/-- `Hub.broadcast_text(room, origin, username, text)`: the logging block
is pure output and is not modelled.  `targets` collects every member whose
connection is not `origin`; a `FILE_ACK` payload is sent back to the origin
only, any other payload to every target; the message is persisted under
`group:<room>` and every target's unread counter is incremented. -/
def broadcast_text (roomMap : List (Nat × String)) (room : String)
    (origin : Nat) (username text : String) : RouteResult :=
  let msg := username ++ "> " ++ text ++ "\n"
  let targets := roomMap.filter (fun p => p.1 ≠ origin)
  { writes :=
      if pyStartsWith text "FILE_ACK " then [(origin, msg)]
      else targets.map (fun p => (p.1, msg)),
    saved := saveMessage (conv_group room) username text,
    unreadIncs := targets.map (fun p => (p.2, conv_group room)) }

/-- The line a DM target receives. -/
def dmFromPayload (originUser text : String) : String :=
  "[DM] FROM " ++ originUser ++ " " ++ text ++ "\n"

/-- The echo line the DM origin receives. -/
def dmToPayload (targetUser text : String) : String :=
  "[DM] TO " ++ targetUser ++ " " ++ text ++ "\n"

/-- `Hub.send_dm(room, origin, origin_user, target_user, text)`: the
logging block is pure output and is not modelled.  Target connections are
those registered in the room under `target_user`; each receives the
`[DM] FROM` payload; the origin receives the `[DM] TO` echo unless the
payload is a file chunk or inline file; the message is persisted under the
canonical DM conversation and the target's unread counter incremented. -/
def send_dm (roomMap : List (Nat × String)) (origin : Nat)
    (originUser targetUser text : String) : RouteResult :=
  let targets := (roomMap.filter (fun p => p.2 = targetUser)).map (fun p => p.1)
  { writes :=
      targets.map (fun c => (c, dmFromPayload originUser text)) ++
      (if pyStartsWith text "FILE_CHUNK " ∨ pyStartsWith text "[FILE] " then []
       else [(origin, dmToPayload targetUser text)]),
    saved := saveMessage (conv_dm originUser targetUser) originUser text,
    unreadIncs := [(targetUser, conv_dm originUser targetUser)] }

/-! ## Receiver-side chunk writes (`_rx_write_chunk_async` in `qt_chat_client.py`)

The worker decodes the base64 payload, then writes it into the partial
file: append mode `ab` when the stated offset equals the current file
size, otherwise `r+b` with `seek(offset)` — a seek past the end leaves a
zero-filled gap.  The partial file is a byte list (`Nat` values); a chunk
is the decoded (offset, bytes) pair. -/

structure Chunk where
  off : Nat
  data : List Nat
deriving DecidableEq, Repr

/-- One past the last byte position a chunk writes. -/
def chunkEnd (c : Chunk) : Nat := c.off + c.data.length

/-- Chunk `c` writes byte position `i`. -/
def chunkCovers (c : Chunk) (i : Nat) : Prop := c.off ≤ i ∧ i < chunkEnd c

instance (c : Chunk) (i : Nat) : Decidable (chunkCovers c i) := by
  unfold chunkCovers
  infer_instance

/-- Zero-fill a file up to length `n` (the gap a past-end `seek` leaves). -/
def padTo (f : List Nat) (n : Nat) : List Nat := f ++ List.replicate (n - f.length) 0

/-- Overwrite `data` into `f` at position `off` (assumes `off ≤ f.length`),
extending the file if the write runs past the current end. -/
def overwriteAt (f : List Nat) (off : Nat) (data : List Nat) : List Nat :=
  f.take off ++ data ++ f.drop (off + data.length)

/-- The effect of one `_Task.run` write on the partial file: append mode
when `off == cur_sz`, else a seeked random-access write (zero-filling any
gap past the current end). -/
def writeChunk (f : List Nat) (c : Chunk) : List Nat :=
  if c.off = f.length then f ++ c.data
  else overwriteAt (padTo f c.off) c.off c.data

/-- Byte at position `i`, reading `0` past the end (matching both the
zero-filled gap and "no byte yet"). -/
def getByte (f : List Nat) (i : Nat) : Nat := f.getD i 0

/-- Fold a delivery order of chunk writes over a starting file. -/
def applyChunks (f : List Nat) (L : List Chunk) : List Nat := L.foldl writeChunk f

/-- A transfer's planned chunk list: ascending and non-overlapping, as
produced by splitting `[start, total)` into `chunk_size` pieces. -/
def ChunkPlan (S : List Chunk) : Prop :=
  List.Pairwise (fun a b => chunkEnd a ≤ b.off) S

instance (S : List Chunk) : Decidable (ChunkPlan S) := by
  unfold ChunkPlan
  infer_instance

/-! ## Sender-side resend bookkeeping (`MultiConnFileUploader` in
`qt_chat_client.py`)

State mirrored from the uploader: `_offsets` (the planned chunk-offset
set), `_acked` (offsets with an observed `FILE_ACK`), `_resend_rounds` and
`_max_resend_rounds` (initialised to 0 and 2).  `_maybe_finalize_or_resend`
either starts a resend round carrying exactly the missing offsets, or —
when none are missing or the rounds are exhausted — sends `FILE_END` and
emits `finished(True)`; the `finalize` action below stands for that pair
of effects. -/

structure UpState where
  offsets : List Nat
  acked : List Nat
  rounds : Nat
  maxRounds : Nat
deriving Repr, DecidableEq

/-- Ascending insertion sort (Python `sorted` on naturals; structural, so
concrete instances evaluate in the kernel). -/
def insertSorted (x : Nat) : List Nat → List Nat
  | [] => [x]
  | y :: t => if x ≤ y then x :: y :: t else y :: insertSorted x t

def sortAsc (l : List Nat) : List Nat := l.foldr insertSorted []

/-- `_missing_offsets`: `sorted(list(self._offsets))` filtered by absence
from `_acked` (the set is modelled as its distinct-element list). -/
def missingOffsets (s : UpState) : List Nat :=
  (sortAsc s.offsets.dedup).filter (fun o => o ∉ s.acked)

inductive UpAction
  | resend (offs : List Nat)
  | finalize
deriving Repr, DecidableEq

/-- One invocation of `_maybe_finalize_or_resend`. -/
def maybeFinalizeOrResend (s : UpState) : UpState × UpAction :=
  if missingOffsets s ≠ [] ∧ s.rounds < s.maxRounds then
    ({ s with rounds := s.rounds + 1 }, UpAction.resend (missingOffsets s))
  else (s, UpAction.finalize)

/-- `note_ack` deliveries observed during one round. -/
def noteAcks (s : UpState) (offs : List Nat) : UpState :=
  { s with acked := s.acked ++ offs }

/-- Invocations of `_maybe_finalize_or_resend` once every ack batch is
exhausted: each further round observes no new acks. -/
def runDryF : Nat → UpState → List UpAction
  | 0, _ => []
  | fuel + 1, s =>
    match maybeFinalizeOrResend s with
    | (s', UpAction.resend offs) => UpAction.resend offs :: runDryF fuel s'
    | (_, UpAction.finalize) => [UpAction.finalize]

/-- The sequence of coordinator actions: after each resend round the
environment delivers the next batch of acks (arbitrary, possibly empty)
and the coordinator is invoked again. -/
def runTrace : UpState → List (List Nat) → List UpAction
  | s, [] => runDryF (s.maxRounds + 1 - s.rounds) s
  | s, batch :: rest =>
    match maybeFinalizeOrResend s with
    | (s', UpAction.resend offs) => UpAction.resend offs :: runTrace (noteAcks s' batch) rest
    | (_, UpAction.finalize) => [UpAction.finalize]

/-- Number of resend rounds in an action trace. -/
def countResends (tr : List UpAction) : Nat :=
  (tr.filter (fun a => match a with | UpAction.resend _ => true | _ => false)).length

/-! ## Session-handler line parsing (`handle_client` in `chat_server.py`)

The local parser helpers, then the body of the per-line read loops.  Two
loops are embedded: `handleLine` is the loop of the implicit-join path
(`chat_server.py:891-982`) and `handleLineHello` the loop of the `HELLO`
path (`chat_server.py:986-1067`).  Replies written to the session's own
socket are collected as `Reply` values (`renderReply` gives the wire line,
newline-terminator omitted); calls into the Hub / unread store become one
`Effect` value; a raised exception (only `int()` inside `parse_hist` can
raise here) is `Except.error`, terminating the session loop. -/

/-- `parse_seq`: unwrap a `SEQ <n> <body>` envelope. -/
def parse_seq (line : String) : Option Int × String :=
  let s := pyStrip line
  if pyStartsWith s "SEQ " then
    let parts := pySplitSpMax s 2
    if 2 ≤ parts.length then
      (pyInt (parts.getD 1 ""), if 3 ≤ parts.length then parts.getD 2 "" else "")
    else (none, line)
  else (none, line)

/-- `parse_dm`: `DM <user> <text>` (case-insensitive keyword). -/
def parse_dm (line : String) : Option (String × String) :=
  let s := pyStrip line
  if s = "" then none
  else if pyUpper ⟨s.data.take 2⟩ = "DM" ∧ (s.data.length = 2 ∨ s.data.getD 2 ' ' = ' ') then
    let parts := pySplitSpMax s 2
    if 3 ≤ parts.length ∧ parts.getD 1 "" ≠ "" then
      some (parts.getD 1 "", parts.getD 2 "")
    else none
  else none

inductive HistReq
  | group (n : Int)
  | dm (peer : String) (n : Int)
deriving Repr, DecidableEq

/-- `parse_hist`: `HIST GROUP [n]` / `HIST DM <peer> [n]`; a non-numeric
count raises `ValueError` (`Except.error`). -/
def parse_hist (line : String) : Except Unit (Option HistReq) :=
  let s := pyStrip line
  if pyStartsWith s "HIST " then
    let parts := pySplitWs s
    if 2 ≤ parts.length ∧ pyUpper (parts.getD 1 "") = "GROUP" then
      if 3 ≤ parts.length then
        match pyInt (parts.getD 2 "") with
        | some n => Except.ok (some (HistReq.group n))
        | none => Except.error ()
      else Except.ok (some (HistReq.group 50))
    else if 3 ≤ parts.length ∧ pyUpper (parts.getD 1 "") = "DM" then
      if 4 ≤ parts.length then
        match pyInt (parts.getD 3 "") with
        | some n => Except.ok (some (HistReq.dm (parts.getD 2 "") n))
        | none => Except.error ()
      else Except.ok (some (HistReq.dm (parts.getD 2 "") 50))
    else Except.ok none
  else Except.ok none

/-- `parse_unread`: the line is exactly `UNREAD` (case-insensitive). -/
def parse_unread (line : String) : Bool := pyUpper (pyStrip line) = "UNREAD"

inductive ReadReq
  | group
  | dm (peer : String)
deriving Repr, DecidableEq

/-- `parse_read`: `READ GROUP` / `READ DM <peer>`. -/
def parse_read (line : String) : Option ReadReq :=
  let s := pyStrip line
  if pyStartsWith s "READ " then
    let parts := pySplitWs s
    if 2 ≤ parts.length ∧ pyUpper (parts.getD 1 "") = "GROUP" then
      some ReadReq.group
    else if 3 ≤ parts.length ∧ pyUpper (parts.getD 1 "") = "DM" then
      some (ReadReq.dm (parts.getD 2 ""))
    else none
  else none

/-- `parse_avatar_upload`: `AVATAR_UPLOAD <file> <mime> <b64>`. -/
def parse_avatar_upload (line : String) : Option (String × String × String) :=
  let s := pyStrip line
  if pyStartsWith s "AVATAR_UPLOAD " then
    let parts := pySplitSpMax s 3
    if 4 ≤ parts.length then
      some (parts.getD 1 "", parts.getD 2 "", parts.getD 3 "")
    else none
  else none

/-- `parse_avatar_req`: `AVATAR_REQ <user>`. -/
def parse_avatar_req (line : String) : Option String :=
  let s := pyStrip line
  if pyStartsWith s "AVATAR_REQ " then
    let parts := pySplitWs s
    if 2 ≤ parts.length then some (parts.getD 1 "") else none
  else none

/-- `parse_avatar`: `AVATAR <file>`. -/
def parse_avatar (line : String) : Option String :=
  let s := pyStrip line
  if pyStartsWith s "AVATAR " then
    let parts := pySplitWs s
    if 2 ≤ parts.length then some (parts.getD 1 "") else none
  else none

/-- Session environment: the auth gate's verdict on a line (`try_auth`,
abstracting the configured HMAC/JWT check), and the read-only lookups
(`load_recent` rows, the avatar cache, the unread snapshot). -/
structure Env where
  tryAuth : String → Option String
  histGroup : Int → List (String × Int × String)
  histDm : String → Int → List (String × Int × String)
  avatarData : String → Option (String × String × String)
  unreadAll : List (String × Int)

/-- A line written back to the session's own connection. -/
inductive Reply
  | pong (tok : String)
  | ack (n : Int)
  | historyGroup (room sender : String) (ts : Int) (txt : String)
  | historyDm (peer sender : String) (ts : Int) (txt : String)
  | avatarData (room user fn mime b64 : String)
  | unread (conv : String) (cnt : Int)
deriving Repr, DecidableEq

/-- The wire form of a reply (trailing newline omitted). -/
def renderReply : Reply → String
  | Reply.pong tok => "PONG " ++ tok
  | Reply.ack n => "[ACK] " ++ toString n
  | Reply.historyGroup room sender ts txt =>
      "[SYS] HISTORY GROUP " ++ room ++ " " ++ sender ++ " " ++ toString ts ++ " " ++ txt
  | Reply.historyDm peer sender ts txt =>
      "[SYS] HISTORY DM " ++ peer ++ " " ++ sender ++ " " ++ toString ts ++ " " ++ txt
  | Reply.avatarData room user fn mime b64 =>
      "[SYS] AVATAR_DATA " ++ room ++ " " ++ user ++ " " ++ fn ++ " " ++ mime ++ " " ++ b64
  | Reply.unread conv cnt => "[SYS] UNREAD " ++ conv ++ " " ++ toString cnt

/-- The Hub / store call performed for one processed line. -/
inductive Effect
  | none
  | setAvatarData (fn mime b64 : String)
  | setAvatar (fn : String)
  | unreadReset (conv : String)
  | sendDmTo (target payload : String)
  | broadcast (text : String)
deriving Repr, DecidableEq

structure LineResult where
  replies : List Reply
  effect : Effect
  authed : Bool
  username : String
deriving Repr, DecidableEq

/-- `[ACK] <n>` emission for a pending `SEQ` envelope. -/
def ackList : Option Int → List Reply
  | some n => [Reply.ack n]
  | none => []

/-- One iteration of the implicit-join read loop
(`chat_server.py:891-982`): parse the envelope, answer `PING`
immediately, drop (but still ack) anything but a successful auth while
unauthenticated, then dispatch the body. -/
def handleLine (env : Env) (room username : String) (authed : Bool)
    (t : String) : Except Unit LineResult :=
  let seq := (parse_seq t).1
  let body := (parse_seq t).2
  if pyStartsWith body "PING " then
    Except.ok ⟨[Reply.pong (pyDrop body 5)], Effect.none, authed, username⟩
  else
    match (if authed then some username else env.tryAuth body) with
    | none => Except.ok ⟨ackList seq, Effect.none, false, username⟩
    | some u =>
      match parse_hist body with
      | Except.error _ => Except.error ()
      | Except.ok (some (HistReq.group n)) =>
          Except.ok ⟨(env.histGroup n).map
              (fun r => Reply.historyGroup room r.1 r.2.1 r.2.2) ++ ackList seq,
            Effect.none, true, u⟩
      | Except.ok (some (HistReq.dm peer n)) =>
          Except.ok ⟨(env.histDm peer n).map
              (fun r => Reply.historyDm peer r.1 r.2.1 r.2.2) ++ ackList seq,
            Effect.none, true, u⟩
      | Except.ok none =>
        match parse_avatar_upload body with
        | some (fn, mime, b64) =>
            Except.ok ⟨ackList seq, Effect.setAvatarData fn mime b64, true, u⟩
        | none =>
          match parse_avatar_req body with
          | some ru =>
              Except.ok ⟨(match env.avatarData ru with
                  | some (fn, mime, b64) => [Reply.avatarData room ru fn mime b64]
                  | none => []) ++ ackList seq,
                Effect.none, true, u⟩
          | none =>
            if parse_unread body then
              Except.ok ⟨env.unreadAll.map (fun p => Reply.unread p.1 p.2) ++ ackList seq,
                Effect.none, true, u⟩
            else
              match parse_read body with
              | some ReadReq.group =>
                  Except.ok ⟨ackList seq, Effect.unreadReset (conv_group room), true, u⟩
              | some (ReadReq.dm peer) =>
                  Except.ok ⟨ackList seq, Effect.unreadReset (conv_dm u peer), true, u⟩
              | none =>
                match parse_avatar body with
                | some fn => Except.ok ⟨ackList seq, Effect.setAvatar fn, true, u⟩
                | none =>
                  match parse_dm body with
                  | some (target, payload) =>
                      Except.ok ⟨ackList seq, Effect.sendDmTo target payload, true, u⟩
                  | none =>
                    if pyStartsWith body "MSG " then
                      Except.ok ⟨ackList seq, Effect.broadcast (pyDrop body 4), true, u⟩
                    else if pyStartsWith body "AVATAR_UPLOAD " ∨
                        pyStartsWith body "AVATAR_REQ " then
                      Except.ok ⟨ackList seq, Effect.none, true, u⟩
                    else
                      Except.ok ⟨ackList seq, Effect.broadcast body, true, u⟩

/-- One iteration of the `HELLO`-path read loop (`chat_server.py:986-1067`).
Structurally like `handleLine`, but the `PING` branch contains two
consecutive `sendall` calls of the same `PONG` line, and the loop has no
avatar branches (`AVATAR_UPLOAD`/`AVATAR_REQ` prefixes are dropped). -/
def handleLineHello (env : Env) (room username : String) (authed : Bool)
    (t : String) : Except Unit LineResult :=
  let seq := (parse_seq t).1
  let body := (parse_seq t).2
  if pyStartsWith body "PING " then
    Except.ok ⟨[Reply.pong (pyDrop body 5), Reply.pong (pyDrop body 5)],
      Effect.none, authed, username⟩
  else
    match (if authed then some username else env.tryAuth body) with
    | none => Except.ok ⟨ackList seq, Effect.none, false, username⟩
    | some u =>
      match parse_hist body with
      | Except.error _ => Except.error ()
      | Except.ok (some (HistReq.group n)) =>
          Except.ok ⟨(env.histGroup n).map
              (fun r => Reply.historyGroup room r.1 r.2.1 r.2.2) ++ ackList seq,
            Effect.none, true, u⟩
      | Except.ok (some (HistReq.dm peer n)) =>
          Except.ok ⟨(env.histDm peer n).map
              (fun r => Reply.historyDm peer r.1 r.2.1 r.2.2) ++ ackList seq,
            Effect.none, true, u⟩
      | Except.ok none =>
        if parse_unread body then
          Except.ok ⟨env.unreadAll.map (fun p => Reply.unread p.1 p.2) ++ ackList seq,
            Effect.none, true, u⟩
        else
          match parse_read body with
          | some ReadReq.group =>
              Except.ok ⟨ackList seq, Effect.unreadReset (conv_group room), true, u⟩
          | some (ReadReq.dm peer) =>
              Except.ok ⟨ackList seq, Effect.unreadReset (conv_dm u peer), true, u⟩
          | none =>
            match parse_dm body with
            | some (target, payload) =>
                Except.ok ⟨ackList seq, Effect.sendDmTo target payload, true, u⟩
            | none =>
              if pyStartsWith body "MSG " then
                Except.ok ⟨ackList seq, Effect.broadcast (pyDrop body 4), true, u⟩
              else if pyStartsWith body "AVATAR_UPLOAD " ∨
                  pyStartsWith body "AVATAR_REQ " then
                Except.ok ⟨ackList seq, Effect.none, true, u⟩
              else
                Except.ok ⟨ackList seq, Effect.broadcast body, true, u⟩

instance {ε α : Type} [DecidableEq ε] [DecidableEq α] : DecidableEq (Except ε α) :=
  fun a b =>
    match a, b with
    | Except.error e, Except.error e' => decidable_of_iff (e = e') (by simp)
    | Except.ok x, Except.ok y => decidable_of_iff (x = y) (by simp)
    | Except.error _, Except.ok _ => isFalse (by simp)
    | Except.ok _, Except.error _ => isFalse (by simp)

/-- Is this reply an `[ACK]` line? -/
def isAckR : Reply → Bool
  | Reply.ack _ => true
  | _ => false

/-- The acknowledgement replies among a reply sequence. -/
def acksOf (l : List Reply) : List Reply := l.filter isAckR

/-- An environment with no configured auth, no history, no avatars and no
unread counters (the state of a fresh server). -/
def envEmpty : Env := ⟨fun _ => none, fun _ => [], fun _ _ => [], fun _ => none, []⟩

/-! ## `NAME_CHECK` probe (`chat_server.py:744-761`)

The server-side Hub state touched by the handshake.  The `NAME_CHECK`
branch reads only the persistent registered-username set, answers one
line, closes the socket and returns without registering. -/

structure HubState where
  rooms : List (String × List (Nat × String))
  connInfo : List (Nat × String × String)
  registered : List String
deriving Repr, DecidableEq

/-- The reply line of the probe. -/
def nameCheckReply (registered : List String) (r u : String) : String :=
  if u ∈ registered then "[SYS] NAME_TAKEN " ++ r ++ " " ++ u
  else "[SYS] NAME_OK " ++ r ++ " " ++ u

/-- The `NAME_CHECK` branch: split the first line on whitespace, default
the room to the session default and the user to the client address, reply,
and return with the state untouched (the socket is then closed). -/
def handleNameCheck (st : HubState) (addrName roomDefault : String)
    (first : String) : String × HubState :=
  let parts := pySplitWs (pyStrip first)
  let r := if 2 ≤ parts.length then parts.getD 1 "" else roomDefault
  let u := if 3 ≤ parts.length then parts.getD 2 "" else addrName
  (nameCheckReply st.registered r u, st)

end XiaoCai

namespace XiaoCai

/-! ## Theorems for C9 and C5 -/

theorem conv_dm_eq_min_max (a b : String) :
    conv_dm a b = "dm:" ++ min a b ++ "&" ++ max a b := by
  unfold conv_dm
  rcases lt_trichotomy a b with h | h | h
  · rw [if_neg (asymm h), min_eq_left h.le, max_eq_right h.le]
  · subst h
    rw [if_neg (lt_irrefl a), min_self, max_self]
  · rw [if_pos h, min_eq_right h.le, max_eq_left h.le]

/-- C9: `conv_dm` is symmetric in its arguments, and the canonical id is
`dm:` followed by the lexicographically smaller name, `&`, then the larger,
so both participants resolve to the same conversation id. -/
theorem conv_dm_canonical (a b : String) :
    conv_dm a b = conv_dm b a ∧
    conv_dm a b = "dm:" ++ min a b ++ "&" ++ max a b := by
  refine ⟨?_, conv_dm_eq_min_max a b⟩
  rw [conv_dm_eq_min_max a b, conv_dm_eq_min_max b a, min_comm, max_comm]

/-- The counter value a reader observes: `m.get(conv, 0)` in the code. -/
def unreadValue (s : UnreadMem) (user conv : String) : Int :=
  (s user conv).getD 0

/-- After `k` increments on `(user, conv)` the observed counter is exactly
the starting value plus `k`. -/
theorem unread_inc_replicate (user conv : String) (s : UnreadMem) (k : Nat) :
    unreadValue (applyUnreadOps s (List.replicate k (UnreadOp.inc user conv))) user conv =
      unreadValue s user conv + k := by
  induction k generalizing s with
  | zero => simp [applyUnreadOps]
  | succ n ih =>
    rw [List.replicate_succ]
    have hstep : applyUnreadOps s (UnreadOp.inc user conv ::
        List.replicate n (UnreadOp.inc user conv)) =
        applyUnreadOps (unreadInc s user conv)
          (List.replicate n (UnreadOp.inc user conv)) := rfl
    rw [hstep, ih]
    have hv : unreadValue (unreadInc s user conv) user conv =
        unreadValue s user conv + 1 := by
      simp [unreadValue, unreadInc]
    rw [hv]
    push_cast
    ring

/-- All counters reachable from the empty store are non-negative. -/
theorem unread_nonneg (ops : List UnreadOp) (u c : String) (v : Int)
    (h : applyUnreadOps unreadInit ops u c = some v) : 0 ≤ v := by
  have key : ∀ (ops : List UnreadOp) (s : UnreadMem),
      (∀ u c v, s u c = some v → 0 ≤ v) →
      (∀ u c v, applyUnreadOps s ops u c = some v → 0 ≤ v) := by
    intro ops
    induction ops with
    | nil => intro s hs; exact hs
    | cons op t ih =>
      intro s hs
      have hstep : ∀ u c v, applyUnreadOp s op u c = some v → 0 ≤ v := by
        intro u c v hv
        cases op with
        | inc u0 c0 =>
          by_cases hc : u = u0 ∧ c = c0
          · simp [applyUnreadOp, unreadInc, hc] at hv
            cases hg : s u0 c0 with
            | none => simp [hg] at hv; omega
            | some w =>
              have hw : 0 ≤ w := hs _ _ _ hg
              simp [hg] at hv
              omega
          · simp [applyUnreadOp, unreadInc, hc] at hv
            exact hs _ _ _ hv
        | reset u0 c0 =>
          by_cases hc : u = u0 ∧ c = c0
          · simp [applyUnreadOp, unreadReset, hc] at hv
            omega
          · simp [applyUnreadOp, unreadReset, hc] at hv
            exact hs _ _ _ hv
      exact ih (applyUnreadOp s op) hstep
  have hinit : ∀ u c v, unreadInit u c = some v → 0 ≤ v := by
    intro u c v hv
    simp [unreadInit] at hv
  exact key ops unreadInit hinit u c v h

/-- C5: starting from an absent-or-zero counter, `k` increments leave the
observed counter at exactly `k`; one reset sets it to `0` from any state;
and no sequence of operations from the initial store ever produces a
negative counter. -/
theorem unread_counter_semantics (user conv : String) :
    (∀ (s : UnreadMem) (k : Nat), unreadValue s user conv = 0 →
      unreadValue (applyUnreadOps s (List.replicate k (UnreadOp.inc user conv)))
        user conv = k) ∧
    (∀ (s : UnreadMem), unreadValue (unreadReset s user conv) user conv = 0) ∧
    (∀ (ops : List UnreadOp) (u c : String),
      0 ≤ unreadValue (applyUnreadOps unreadInit ops) u c) := by
  refine ⟨?_, ?_, ?_⟩
  · intro s k hz
    rw [unread_inc_replicate, hz, zero_add]
  · intro s
    simp [unreadValue, unreadReset]
  · intro ops u c
    unfold unreadValue
    cases h : applyUnreadOps unreadInit ops u c with
    | none => simp
    | some v =>
      simpa using unread_nonneg ops u c v h

/-! ## Theorems for C1 and C4 -/

/-- Two strings differing at a character position inside their first
append factor are different. -/
theorem append_ne_of_ne_at (p q : String) (i : Nat)
    (hip : i < p.data.length) (hiq : i < q.data.length)
    (hne : p.data.getD i ' ' ≠ q.data.getD i ' ') :
    ∀ s t : String, p ++ s ≠ q ++ t := by
  intro s t h
  have hd : (p ++ s).data = (q ++ t).data := congrArg String.data h
  rw [String.data_append, String.data_append] at hd
  have hi : (p.data ++ s.data).getD i ' ' = (q.data ++ t.data).getD i ' ' := by
    rw [hd]
  rw [List.getD_append _ _ _ _ hip, List.getD_append _ _ _ _ hiq] at hi
  exact hne hi

/-- The target payload of a DM is never equal to the origin echo payload,
whatever the users and texts involved. -/
theorem dmFromPayload_ne_dmToPayload (a t b t' : String) :
    dmFromPayload a t ≠ dmToPayload b t' := by
  unfold dmFromPayload dmToPayload
  exact append_ne_of_ne_at "[DM] FROM " "[DM] TO " 5 (by decide) (by decide)
    (by decide) _ _

/-- In a list with `Nodup` keys, a key determines its value. -/
theorem nodup_keys_value_eq {l : List (Nat × String)}
    (h : (l.map Prod.fst).Nodup) {c : Nat} {u v : String}
    (h1 : (c, u) ∈ l) (h2 : (c, v) ∈ l) : u = v := by
  induction l with
  | nil => cases h1
  | cons a tl ih =>
    rw [List.map_cons, List.nodup_cons] at h
    rcases List.mem_cons.mp h1 with h1 | h1 <;>
      rcases List.mem_cons.mp h2 with h2 | h2
    · rw [← h1] at h2
      exact (Prod.mk.injEq _ _ _ _).mp h2.symm |>.2
    · exfalso
      apply h.1
      rw [← h1]
      exact List.mem_map.mpr ⟨(c, v), h2, rfl⟩
    · exfalso
      apply h.1
      rw [← h2]
      exact List.mem_map.mpr ⟨(c, u), h1, rfl⟩
    · exact ih h.2 h1 h2

/-- C1: in any room map with distinct connection keys, `send_dm` writes the
`[DM] FROM` payload to every connection registered under the target user,
to no connection registered under any other username, and every connection
that receives it is registered under the target user. -/
theorem send_dm_privacy (roomMap : List (Nat × String)) (origin : Nat)
    (originUser targetUser text : String)
    (hnodup : (roomMap.map Prod.fst).Nodup) :
    (∀ c, (c, targetUser) ∈ roomMap →
      (c, dmFromPayload originUser text) ∈
        (send_dm roomMap origin originUser targetUser text).writes) ∧
    (∀ c u, (c, u) ∈ roomMap → u ≠ targetUser →
      (c, dmFromPayload originUser text) ∉
        (send_dm roomMap origin originUser targetUser text).writes) ∧
    (∀ c, (c, dmFromPayload originUser text) ∈
        (send_dm roomMap origin originUser targetUser text).writes →
      (c, targetUser) ∈ roomMap) := by
  have hmem : ∀ c, (c, dmFromPayload originUser text) ∈
      (send_dm roomMap origin originUser targetUser text).writes ↔
      (c, targetUser) ∈ roomMap := by
    intro c
    unfold send_dm
    simp only [List.mem_append, List.mem_map, List.mem_filter]
    constructor
    · intro h
      rcases h with ⟨c', ⟨p, ⟨hp, hptu⟩, hpc⟩, hceq⟩ | h
      · have hc : c' = c := (Prod.mk.injEq _ _ _ _).mp hceq |>.1
        have htu : p.2 = targetUser := of_decide_eq_true hptu
        have hpeq : p = (c, targetUser) := by
          rw [hc] at hpc
          exact Prod.ext hpc htu
        rw [← hpeq]
        exact hp
      · exfalso
        rcases Classical.em (pyStartsWith text "FILE_CHUNK " = true ∨
            pyStartsWith text "[FILE] " = true) with hb | hb
        · rw [if_pos hb] at h
          exact absurd h (List.not_mem_nil _)
        · rw [if_neg hb] at h
          have hpair := List.mem_singleton.mp h
          exact dmFromPayload_ne_dmToPayload originUser text targetUser text
            ((Prod.mk.injEq _ _ _ _).mp hpair).2
    · intro h
      left
      exact ⟨c, ⟨(c, targetUser), ⟨h, by simp⟩, rfl⟩, rfl⟩
  refine ⟨fun c hc => (hmem c).mpr hc, ?_, fun c hc => (hmem c).mp hc⟩
  intro c u hcu hne hmem'
  exact hne (nodup_keys_value_eq hnodup hcu ((hmem c).mp hmem'))

/-- Concrete instantiation of C1: room with members A (conn 0, origin),
B (conn 1, target) and third member C (conn 2); B's connection receives the
`[DM] FROM` payload and C's does not. -/
theorem send_dm_privacy_witness :
    ((1, dmFromPayload "C01" "hello-c01-to-c03") ∈
      (send_dm [(0, "C01"), (1, "C03"), (2, "C02")] 0 "C01" "C03"
        "hello-c01-to-c03").writes) ∧
    ((2, dmFromPayload "C01" "hello-c01-to-c03") ∉
      (send_dm [(0, "C01"), (1, "C03"), (2, "C02")] 0 "C01" "C03"
        "hello-c01-to-c03").writes) := by
  have h := send_dm_privacy [(0, "C01"), (1, "C03"), (2, "C02")] 0 "C01" "C03"
    "hello-c01-to-c03" (by decide)
  exact ⟨h.1 1 (by decide), h.2.1 2 "C02" (by decide) (by decide)⟩

/-- The broadcast line `<user>> <text>`. -/
def msgLine (username text : String) : String := username ++ "> " ++ text ++ "\n"

/-- C4 (amended): for a payload not starting with `FILE_ACK `,
`broadcast_text` writes `<user>> <text>` to exactly the room connections
other than the origin and never to the origin; a payload starting with
`FILE_ACK ` is written to the origin connection only. -/
theorem broadcast_text_routing (roomMap : List (Nat × String)) (room : String)
    (origin : Nat) (username text : String) :
    (pyStartsWith text "FILE_ACK " = false →
      (∀ c u, (c, u) ∈ roomMap → c ≠ origin →
        (c, msgLine username text) ∈
          (broadcast_text roomMap room origin username text).writes) ∧
      (∀ p, (origin, p) ∉ (broadcast_text roomMap room origin username text).writes) ∧
      (∀ c p, (c, p) ∈ (broadcast_text roomMap room origin username text).writes →
        c ≠ origin ∧ p = msgLine username text)) ∧
    (pyStartsWith text "FILE_ACK " = true →
      (broadcast_text roomMap room origin username text).writes =
        [(origin, msgLine username text)]) := by
  constructor
  · intro hno
    have hw : (broadcast_text roomMap room origin username text).writes =
        (roomMap.filter (fun p => p.1 ≠ origin)).map
          (fun p => (p.1, msgLine username text)) := by
      unfold broadcast_text msgLine
      simp [hno]
    refine ⟨?_, ?_, ?_⟩
    · intro c u hcu hco
      rw [hw]
      exact List.mem_map.mpr ⟨(c, u), List.mem_filter.mpr ⟨hcu, by simpa using hco⟩, rfl⟩
    · intro p hp
      rw [hw] at hp
      rcases List.mem_map.mp hp with ⟨q, hq, hqe⟩
      have hq1 : q.1 ≠ origin := by simpa using (List.mem_filter.mp hq).2
      exact hq1 ((Prod.mk.injEq _ _ _ _).mp hqe).1
    · intro c p hp
      rw [hw] at hp
      rcases List.mem_map.mp hp with ⟨q, hq, hqe⟩
      have hq1 : q.1 ≠ origin := by simpa using (List.mem_filter.mp hq).2
      obtain ⟨h1, h2⟩ := (Prod.mk.injEq _ _ _ _).mp hqe
      exact ⟨h1 ▸ hq1, h2.symm⟩
  · intro hyes
    unfold broadcast_text msgLine
    simp [hyes]

/-- Concrete instantiation of the amended C4: for an ordinary text the
origin gets nothing and the other member gets the line; room
`[(0, alice), (1, bob)]`, origin 0. -/
theorem broadcast_text_routing_witness :
    ((1, msgLine "alice" "hi") ∈
      (broadcast_text [(0, "alice"), (1, "bob")] "世界" 0 "alice" "hi").writes) ∧
    (∀ p, (0, p) ∉
      (broadcast_text [(0, "alice"), (1, "bob")] "世界" 0 "alice" "hi").writes) ∧
    (broadcast_text [(0, "alice"), (1, "bob")] "世界" 0 "alice"
      "FILE_ACK d41d8cd9 0 65536").writes =
      [(0, msgLine "alice" "FILE_ACK d41d8cd9 0 65536")] := by
  have h := broadcast_text_routing [(0, "alice"), (1, "bob")] "世界" 0 "alice" "hi"
  have hack := broadcast_text_routing [(0, "alice"), (1, "bob")] "世界" 0 "alice"
    "FILE_ACK d41d8cd9 0 65536"
  exact ⟨(h.1 (by decide)).1 1 "bob" (by decide) (by decide),
    (h.1 (by decide)).2.1, hack.2 (by decide)⟩

/-- C4 as stated is false: a `FILE_ACK` text is written back to the origin
connection and not to the other members. Room `[(0, alice), (1, bob)]`,
origin connection 0, text `FILE_ACK d41d8cd9 0 65536`. -/
theorem broadcast_text_origin_echo_counterexample :
    ((0, msgLine "alice" "FILE_ACK d41d8cd9 0 65536") ∈
      (broadcast_text [(0, "alice"), (1, "bob")] "世界" 0 "alice"
        "FILE_ACK d41d8cd9 0 65536").writes) ∧
    ((1, msgLine "alice" "FILE_ACK d41d8cd9 0 65536") ∉
      (broadcast_text [(0, "alice"), (1, "bob")] "世界" 0 "alice"
        "FILE_ACK d41d8cd9 0 65536").writes) := by
  constructor
  · decide
  · decide

/-- Concrete instantiation of C5: two increments on a fresh counter give 2,
a reset gives 0, and a reachable value is non-negative. -/
theorem unread_counter_semantics_witness :
    unreadValue unreadInit "alice" "group:世界" = 0 ∧
    unreadValue (applyUnreadOps unreadInit
      (List.replicate 2 (UnreadOp.inc "alice" "group:世界"))) "alice" "group:世界" =
      (2 : Int) ∧
    unreadValue (unreadReset unreadInit "alice" "group:世界") "alice" "group:世界" = 0 ∧
    0 ≤ unreadValue (applyUnreadOps unreadInit
      [UnreadOp.inc "alice" "dm:alice&bob", UnreadOp.reset "alice" "dm:alice&bob"])
      "alice" "dm:alice&bob" := by
  refine ⟨rfl, ?_, ?_, ?_⟩
  · exact (unread_counter_semantics "alice" "group:世界").1 unreadInit 2 rfl
  · exact (unread_counter_semantics "alice" "group:世界").2.1 unreadInit
  · exact (unread_counter_semantics "alice" "dm:alice&bob").2.2
      [UnreadOp.inc "alice" "dm:alice&bob", UnreadOp.reset "alice" "dm:alice&bob"]
      "alice" "dm:alice&bob"

/-! ## Theorems for C2 -/

theorem getElem?_eq_getByte (l : List Nat) (i : Nat) :
    l[i]? = if i < l.length then some (getByte l i) else none := by
  rcases Nat.lt_or_ge i l.length with h | h
  · rw [if_pos h]
    unfold getByte
    rw [List.getD_eq_getElem?_getD, List.getElem?_eq_getElem h]
    rfl
  · rw [if_neg (by omega)]
    exact List.getElem?_eq_none h

/-- Padding with zeros never changes the observed byte at any position. -/
theorem getByte_padTo (f : List Nat) (n i : Nat) :
    getByte (padTo f n) i = getByte f i := by
  unfold getByte padTo
  rw [List.getD_eq_getElem?_getD, List.getD_eq_getElem?_getD, List.getElem?_append]
  rcases Nat.lt_or_ge i f.length with h | h
  · rw [if_pos h]
  · rw [if_neg (by omega), List.getElem?_replicate, List.getElem?_eq_none h]
    split <;> rfl

theorem length_padTo (f : List Nat) (n : Nat) :
    (padTo f n).length = max f.length n := by
  unfold padTo
  rw [List.length_append, List.length_replicate]
  omega

/-- Pointwise effect of `overwriteAt` when the offset is inside the file. -/
theorem getByte_overwriteAt (f : List Nat) (off : Nat) (data : List Nat)
    (hoff : off ≤ f.length) (i : Nat) :
    getByte (overwriteAt f off data) i =
      if off ≤ i ∧ i < off + data.length then data.getD (i - off) 0
      else getByte f i := by
  unfold overwriteAt getByte
  have hlen1 : (f.take off).length = off := by
    rw [List.length_take]
    omega
  rw [List.getD_eq_getElem?_getD, List.getElem?_append, List.length_append, hlen1]
  rcases Nat.lt_or_ge i (off + data.length) with h | h
  · rw [if_pos h, List.getElem?_append, hlen1]
    rcases Nat.lt_or_ge i off with h2 | h2
    · rw [if_pos h2, if_neg (by omega), List.getElem?_take, if_pos h2,
        List.getD_eq_getElem?_getD]
    · rw [if_neg (by omega), if_pos (by omega), List.getD_eq_getElem?_getD]
  · rw [if_neg (by omega), if_neg (by omega), List.getElem?_drop,
      List.getD_eq_getElem?_getD]
    have harith : off + data.length + (i - (off + data.length)) = i := by omega
    rw [harith]

/-- Both branches of the mode selection perform the same offset-addressed
write. -/
theorem writeChunk_eq_overwriteAt (f : List Nat) (c : Chunk) :
    writeChunk f c = overwriteAt (padTo f c.off) c.off c.data := by
  unfold writeChunk
  by_cases hoff : c.off = f.length
  · rw [if_pos hoff]
    unfold overwriteAt padTo
    rw [hoff]
    simp
  · rw [if_neg hoff]

/-- Pointwise effect of one chunk write: the decoded bytes land at exactly
the stated offset; every other position is unchanged. -/
theorem getByte_writeChunk (f : List Nat) (c : Chunk) (i : Nat) :
    getByte (writeChunk f c) i =
      if chunkCovers c i then c.data.getD (i - c.off) 0 else getByte f i := by
  rw [writeChunk_eq_overwriteAt]
  have hoff : c.off ≤ (padTo f c.off).length := by
    rw [length_padTo]
    omega
  rw [getByte_overwriteAt _ _ _ hoff i]
  unfold chunkCovers chunkEnd
  split <;> [rfl; exact getByte_padTo f c.off i]

theorem length_writeChunk (f : List Nat) (c : Chunk) :
    (writeChunk f c).length = max f.length (chunkEnd c) := by
  rw [writeChunk_eq_overwriteAt]
  unfold overwriteAt chunkEnd
  rw [List.length_append, List.length_append, List.length_take, List.length_drop,
    length_padTo]
  omega

/-- Largest end position of any chunk in a delivery list. -/
def chunksMaxEnd (L : List Chunk) : Nat :=
  L.foldr (fun c m => max (chunkEnd c) m) 0

theorem chunksMaxEnd_le_iff (L : List Chunk) (k : Nat) :
    chunksMaxEnd L ≤ k ↔ ∀ c ∈ L, chunkEnd c ≤ k := by
  induction L with
  | nil => simp [chunksMaxEnd]
  | cons hd tl ih =>
    unfold chunksMaxEnd at ih ⊢
    simp only [List.foldr_cons, max_le_iff, List.mem_cons, ih]
    constructor
    · rintro ⟨h1, h2⟩ c (rfl | hc)
      · exact h1
      · exact h2 c hc
    · intro h
      exact ⟨h hd (Or.inl rfl), fun c hc => h c (Or.inr hc)⟩

theorem chunksMaxEnd_eq_of_mem_iff (L S : List Chunk)
    (h1 : ∀ c ∈ L, c ∈ S) (h2 : ∀ c ∈ S, c ∈ L) :
    chunksMaxEnd L = chunksMaxEnd S := by
  apply Nat.le_antisymm
  · exact (chunksMaxEnd_le_iff L _).mpr
      (fun c hc => (chunksMaxEnd_le_iff S _).mp le_rfl c (h1 c hc))
  · exact (chunksMaxEnd_le_iff S _).mpr
      (fun c hc => (chunksMaxEnd_le_iff L _).mp le_rfl c (h2 c hc))

theorem length_applyChunks (L : List Chunk) (f : List Nat) :
    (applyChunks f L).length = max f.length (chunksMaxEnd L) := by
  induction L generalizing f with
  | nil => simp [applyChunks, chunksMaxEnd]
  | cons hd tl ih =>
    have hstep : applyChunks f (hd :: tl) = applyChunks (writeChunk f hd) tl := rfl
    rw [hstep, ih, length_writeChunk]
    unfold chunksMaxEnd
    rw [List.foldr_cons]
    omega

theorem getByte_applyChunks_of_not_covered (L : List Chunk) (f : List Nat) (i : Nat)
    (h : ∀ c ∈ L, ¬ chunkCovers c i) :
    getByte (applyChunks f L) i = getByte f i := by
  induction L generalizing f with
  | nil => rfl
  | cons hd tl ih =>
    have hstep : applyChunks f (hd :: tl) = applyChunks (writeChunk f hd) tl := rfl
    rw [hstep, ih _ (fun c hc => h c (List.mem_cons_of_mem hd hc)),
      getByte_writeChunk, if_neg (h hd (List.mem_cons_self hd tl))]

theorem getByte_applyChunks_of_covered (L : List Chunk) (f : List Nat) (i : Nat)
    (c : Chunk) (hc : c ∈ L) (hcov : chunkCovers c i)
    (hagree : ∀ c' ∈ L, chunkCovers c' i →
      c'.data.getD (i - c'.off) 0 = c.data.getD (i - c.off) 0) :
    getByte (applyChunks f L) i = c.data.getD (i - c.off) 0 := by
  induction L generalizing f c with
  | nil => cases hc
  | cons hd tl ih =>
    have hstep : applyChunks f (hd :: tl) = applyChunks (writeChunk f hd) tl := rfl
    rw [hstep]
    by_cases hex : ∃ c' ∈ tl, chunkCovers c' i
    · obtain ⟨c', hc', hcov'⟩ := hex
      rw [ih (writeChunk f hd) c' hc' hcov'
        (fun c'' hc'' hcov'' => by
          rw [hagree c'' (List.mem_cons_of_mem hd hc'') hcov'',
            ← hagree c' (List.mem_cons_of_mem hd hc') hcov'])]
      exact hagree c' (List.mem_cons_of_mem hd hc') hcov'
    · push_neg at hex
      rw [getByte_applyChunks_of_not_covered tl _ i hex, getByte_writeChunk]
      rcases List.mem_cons.mp hc with rfl | hctl
      · rw [if_pos hcov]
      · exact absurd hcov (hex c hctl)

/-- In a planned (sorted, non-overlapping) chunk list, at most one chunk
covers any byte position. -/
theorem plan_cover_unique (S : List Chunk) (hS : ChunkPlan S) (i : Nat)
    (c1 c2 : Chunk) (h1 : c1 ∈ S) (h2 : c2 ∈ S)
    (hc1 : chunkCovers c1 i) (hc2 : chunkCovers c2 i) : c1 = c2 := by
  induction S with
  | nil => cases h1
  | cons hd tl ih =>
    unfold ChunkPlan at hS
    rw [List.pairwise_cons] at hS
    rcases List.mem_cons.mp h1 with e1 | h1' <;>
      rcases List.mem_cons.mp h2 with e2 | h2'
    · rw [e1, e2]
    · exfalso
      have hle : chunkEnd c1 ≤ c2.off := by
        rw [e1]
        exact hS.1 c2 h2'
      unfold chunkCovers at hc1 hc2
      unfold chunkEnd at hc1 hc2 hle
      omega
    · exfalso
      have hle : chunkEnd c2 ≤ c1.off := by
        rw [e2]
        exact hS.1 c1 h1'
      unfold chunkCovers at hc1 hc2
      unfold chunkEnd at hc1 hc2 hle
      omega
    · exact ih hS.2 h1' h2'

/-- C2: for a planned set `S` of chunks (ascending, non-overlapping, as a
transfer's chunk split produces), any delivery order `L` drawn from `S`
that delivers every chunk at least once — any permutation, duplicates of a
chunk included — produces exactly the same file bytes as the single
in-order pass `S`; and each individual write places its decoded bytes at
exactly its stated offset, never appended at the current end. -/
theorem chunk_reassembly_order_independent (S L : List Chunk) (init : List Nat)
    (hplan : ChunkPlan S)
    (hLS : ∀ c ∈ L, c ∈ S) (hSL : ∀ c ∈ S, c ∈ L) :
    applyChunks init L = applyChunks init S ∧
    (∀ (f : List Nat) (c : Chunk) (j : Nat), j < c.data.length →
      getByte (writeChunk f c) (c.off + j) = c.data.getD j 0) := by
  constructor
  · have hlen : (applyChunks init L).length = (applyChunks init S).length := by
      rw [length_applyChunks, length_applyChunks,
        chunksMaxEnd_eq_of_mem_iff L S hLS hSL]
    have hbyte : ∀ i, getByte (applyChunks init L) i = getByte (applyChunks init S) i := by
      intro i
      by_cases hex : ∃ c ∈ S, chunkCovers c i
      · obtain ⟨c, hcS, hcov⟩ := hex
        have hagreeS : ∀ c' ∈ S, chunkCovers c' i →
            c'.data.getD (i - c'.off) 0 = c.data.getD (i - c.off) 0 := by
          intro c' hc' hcov'
          rw [plan_cover_unique S hplan i c' c hc' hcS hcov' hcov]
        rw [getByte_applyChunks_of_covered S init i c hcS hcov hagreeS,
          getByte_applyChunks_of_covered L init i c (hSL c hcS) hcov
            (fun c' hc' hcov' => hagreeS c' (hLS c' hc') hcov')]
      · push_neg at hex
        rw [getByte_applyChunks_of_not_covered S init i hex,
          getByte_applyChunks_of_not_covered L init i
            (fun c hc => hex c (hLS c hc))]
    apply List.ext_getElem?
    intro i
    rw [getElem?_eq_getByte, getElem?_eq_getByte, hlen, hbyte i]
  · intro f c j hj
    rw [getByte_writeChunk, if_pos (by unfold chunkCovers chunkEnd; omega)]
    have : c.off + j - c.off = j := by omega
    rw [this]

/-- Concrete instantiation of C2: plan `[(0, [10, 20]), (2, [30])]`,
delivered shuffled and with a duplicate, equals the in-order single pass;
and a single write at offset 1 lands at position 1. -/
theorem chunk_reassembly_order_independent_witness :
    applyChunks [] [Chunk.mk 2 [30], Chunk.mk 0 [10, 20], Chunk.mk 2 [30]] =
      applyChunks [] [Chunk.mk 0 [10, 20], Chunk.mk 2 [30]] ∧
    getByte (writeChunk [5, 6, 7] (Chunk.mk 1 [40])) (1 + 0) =
      (Chunk.mk 1 [40]).data.getD 0 0 := by
  have h := chunk_reassembly_order_independent
    [Chunk.mk 0 [10, 20], Chunk.mk 2 [30]]
    [Chunk.mk 2 [30], Chunk.mk 0 [10, 20], Chunk.mk 2 [30]]
    [] (by decide) (by decide) (by decide)
  exact ⟨h.1, h.2 [5, 6, 7] (Chunk.mk 1 [40]) 0 (by decide)⟩

/-! ## Theorems for C3 -/

theorem runDryF_spec : ∀ (fuel : Nat) (s : UpState), s.rounds ≤ s.maxRounds →
    fuel = s.maxRounds + 1 - s.rounds →
    ∃ pre, runDryF fuel s = pre ++ [UpAction.finalize] ∧
      countResends (runDryF fuel s) + s.rounds ≤ s.maxRounds ∧
      ∀ a ∈ pre, ∃ offs, a = UpAction.resend offs := by
  intro fuel
  induction fuel with
  | zero =>
    intro s h1 h2
    omega
  | succ n ih =>
    intro s h1 h2
    by_cases hc : missingOffsets s ≠ [] ∧ s.rounds < s.maxRounds
    · have hstep : maybeFinalizeOrResend s =
          ({ s with rounds := s.rounds + 1 }, UpAction.resend (missingOffsets s)) := by
        unfold maybeFinalizeOrResend
        rw [if_pos hc]
      have hrun : runDryF (n + 1) s = UpAction.resend (missingOffsets s) ::
          runDryF n { s with rounds := s.rounds + 1 } := by
        simp only [runDryF, hstep]
      obtain ⟨pre, hp1, hp2, hp3⟩ := ih { s with rounds := s.rounds + 1 }
        (by simp only []; omega) (by simp only []; omega)
      refine ⟨UpAction.resend (missingOffsets s) :: pre, ?_, ?_, ?_⟩
      · rw [hrun, hp1]
        rfl
      · rw [hrun]
        have hcount : countResends (UpAction.resend (missingOffsets s) ::
            runDryF n { s with rounds := s.rounds + 1 }) =
            countResends (runDryF n { s with rounds := s.rounds + 1 }) + 1 := by
          simp [countResends]
        simp only [] at hp2
        omega
      · intro a ha
        rcases List.mem_cons.mp ha with rfl | ha
        · exact ⟨missingOffsets s, rfl⟩
        · exact hp3 a ha
    · have hstep : maybeFinalizeOrResend s = (s, UpAction.finalize) := by
        unfold maybeFinalizeOrResend
        rw [if_neg hc]
      have hrun : runDryF (n + 1) s = [UpAction.finalize] := by
        simp only [runDryF, hstep]
      refine ⟨[], by rw [hrun]; rfl, ?_, by simp⟩
      rw [hrun]
      have : countResends [UpAction.finalize] = 0 := by simp [countResends]
      omega

theorem runTrace_spec : ∀ (batches : List (List Nat)) (s : UpState),
    s.rounds ≤ s.maxRounds →
    ∃ pre, runTrace s batches = pre ++ [UpAction.finalize] ∧
      countResends (runTrace s batches) + s.rounds ≤ s.maxRounds ∧
      ∀ a ∈ pre, ∃ offs, a = UpAction.resend offs := by
  intro batches
  induction batches with
  | nil =>
    intro s h1
    exact runDryF_spec (s.maxRounds + 1 - s.rounds) s h1 rfl
  | cons batch rest ih =>
    intro s h1
    by_cases hc : missingOffsets s ≠ [] ∧ s.rounds < s.maxRounds
    · have hstep : maybeFinalizeOrResend s =
          ({ s with rounds := s.rounds + 1 }, UpAction.resend (missingOffsets s)) := by
        unfold maybeFinalizeOrResend
        rw [if_pos hc]
      have hrun : runTrace s (batch :: rest) = UpAction.resend (missingOffsets s) ::
          runTrace (noteAcks { s with rounds := s.rounds + 1 } batch) rest := by
        simp only [runTrace, hstep]
      obtain ⟨pre, hp1, hp2, hp3⟩ := ih (noteAcks { s with rounds := s.rounds + 1 } batch)
        (by simp only [noteAcks]; omega)
      refine ⟨UpAction.resend (missingOffsets s) :: pre, ?_, ?_, ?_⟩
      · rw [hrun, hp1]
        rfl
      · rw [hrun]
        have hcount : countResends (UpAction.resend (missingOffsets s) ::
            runTrace (noteAcks { s with rounds := s.rounds + 1 } batch) rest) =
            countResends (runTrace (noteAcks { s with rounds := s.rounds + 1 } batch)
              rest) + 1 := by
          simp [countResends]
        simp only [noteAcks] at hp2 hcount ⊢
        omega
      · intro a ha
        rcases List.mem_cons.mp ha with rfl | ha
        · exact ⟨missingOffsets s, rfl⟩
        · exact hp3 a ha
    · have hstep : maybeFinalizeOrResend s = (s, UpAction.finalize) := by
        unfold maybeFinalizeOrResend
        rw [if_neg hc]
      have hrun : runTrace s (batch :: rest) = [UpAction.finalize] := by
        simp only [runTrace, hstep]
      refine ⟨[], by rw [hrun]; rfl, ?_, by simp⟩
      rw [hrun]
      have : countResends [UpAction.finalize] = 0 := by simp [countResends]
      omega

/-- C3: every resend round carries exactly the currently missing (planned
but unacknowledged) offsets and only happens while the round counter is
below the bound; when nothing is missing or the bound is reached the
coordinator finalizes (sends `FILE_END` and signals completion) even with
offsets still missing; and with the initial bound of two, any execution is
a trace of at most two resend rounds followed by one finalize — the send
loop always terminates. -/
theorem uploader_resend_bounded :
    (∀ (s s' : UpState) (offs : List Nat),
      maybeFinalizeOrResend s = (s', UpAction.resend offs) →
      offs = missingOffsets s ∧ s.rounds < s.maxRounds ∧ s'.rounds = s.rounds + 1) ∧
    (∀ s : UpState, missingOffsets s = [] ∨ s.maxRounds ≤ s.rounds →
      maybeFinalizeOrResend s = (s, UpAction.finalize)) ∧
    (∀ (s : UpState) (batches : List (List Nat)),
      s.maxRounds = 2 → s.rounds = 0 →
      ∃ pre, runTrace s batches = pre ++ [UpAction.finalize] ∧
        countResends (runTrace s batches) ≤ 2 ∧
        ∀ a ∈ pre, ∃ offs, a = UpAction.resend offs) := by
  refine ⟨?_, ?_, ?_⟩
  · intro s s' offs h
    unfold maybeFinalizeOrResend at h
    by_cases hc : missingOffsets s ≠ [] ∧ s.rounds < s.maxRounds
    · rw [if_pos hc] at h
      obtain ⟨h1, h2⟩ := Prod.mk.injEq _ _ _ _ |>.mp h
      refine ⟨(UpAction.resend.injEq _ _).mp h2.symm, hc.2, ?_⟩
      rw [← h1]
    · rw [if_neg hc] at h
      obtain ⟨_, h2⟩ := (Prod.mk.injEq _ _ _ _).mp h
      exact absurd h2 (by simp)
  · intro s h
    unfold maybeFinalizeOrResend
    rw [if_neg]
    rcases h with h | h
    · intro hc
      exact hc.1 h
    · intro hc
      omega
  · intro s batches hmax hr
    obtain ⟨pre, hp1, hp2, hp3⟩ := runTrace_spec batches s (by omega)
    exact ⟨pre, hp1, by omega, hp3⟩

/-- Concrete instantiation of C3: plan `{0, 65536}` with offset 0 already
acked; a first invocation resends exactly `[65536]`, and a run where that
resend is acked finalizes after one resend round. -/
theorem uploader_resend_bounded_witness :
    (UpState.mk [0, 65536] [0] 0 2).rounds < (UpState.mk [0, 65536] [0] 0 2).maxRounds ∧
    [65536] = missingOffsets (UpState.mk [0, 65536] [0] 0 2) ∧
    (∃ pre, runTrace (UpState.mk [0, 65536] [0] 0 2) [[65536]] =
        pre ++ [UpAction.finalize] ∧
      countResends (runTrace (UpState.mk [0, 65536] [0] 0 2) [[65536]]) ≤ 2 ∧
      ∀ a ∈ pre, ∃ offs, a = UpAction.resend offs) := by
  have h1 := uploader_resend_bounded.1 (UpState.mk [0, 65536] [0] 0 2)
    (UpState.mk [0, 65536] [0] 1 2) [65536] (by decide)
  have h3 := uploader_resend_bounded.2.2 (UpState.mk [0, 65536] [0] 0 2)
    [[65536]] rfl rfl
  exact ⟨h1.2.1, h1.1, h3⟩

/-! ## Theorems for C6, C7, C8 and C10 -/

theorem acksOf_append (a b : List Reply) : acksOf (a ++ b) = acksOf a ++ acksOf b := by
  simp [acksOf, List.filter_append]

theorem acksOf_map_of_not_ack {α : Type} (f : α → Reply)
    (hf : ∀ x, isAckR (f x) = false) (l : List α) : acksOf (l.map f) = [] := by
  induction l with
  | nil => rfl
  | cons x t ih =>
    rw [List.map_cons]
    unfold acksOf at ih ⊢
    rw [List.filter_cons, hf x]
    simpa using ih

theorem acksOf_ackList_some (n : Int) : acksOf (ackList (some n)) = [Reply.ack n] := rfl

theorem acksOf_histGroup_map (room : String) (l : List (String × Int × String)) :
    acksOf (l.map (fun r => Reply.historyGroup room r.1 r.2.1 r.2.2)) = [] :=
  acksOf_map_of_not_ack (fun r => Reply.historyGroup room r.1 r.2.1 r.2.2)
    (fun _ => rfl) l

theorem acksOf_histDm_map (peer : String) (l : List (String × Int × String)) :
    acksOf (l.map (fun r => Reply.historyDm peer r.1 r.2.1 r.2.2)) = [] :=
  acksOf_map_of_not_ack (fun r => Reply.historyDm peer r.1 r.2.1 r.2.2)
    (fun _ => rfl) l

theorem acksOf_unread_map (l : List (String × Int)) :
    acksOf (l.map (fun p => Reply.unread p.1 p.2)) = [] :=
  acksOf_map_of_not_ack (fun p => Reply.unread p.1 p.2) (fun _ => rfl) l

/-- C6 (amended): for every accepted `SEQ <n> <body>` line whose handling
completes (no exception), a non-`PING` body yields exactly one
acknowledgement reply, `[ACK] <n>` on the wire — including a non-auth
command dropped because the session is unauthenticated — while a `PING`
body is answered with its `PONG` alone and no acknowledgement. -/
theorem seq_ack_exactly_once (env : Env) (room username : String) (authed : Bool)
    (t : String) (n : Int) (body : String) (res : LineResult)
    (hseq : parse_seq t = (some n, body))
    (hok : handleLine env room username authed t = Except.ok res) :
    (pyStartsWith body "PING " = false →
      acksOf res.replies = [Reply.ack n] ∧
      renderReply (Reply.ack n) = "[ACK] " ++ toString n) ∧
    (pyStartsWith body "PING " = true →
      res.replies = [Reply.pong (pyDrop body 5)] ∧ acksOf res.replies = []) := by
  by_cases hping : pyStartsWith body "PING " = true
  · refine ⟨fun hf => absurd hping (by rw [hf]; simp), fun _ => ?_⟩
    simp only [handleLine, hseq, hping, if_true] at hok
    rw [Except.ok.injEq] at hok
    rw [← hok]
    exact ⟨rfl, rfl⟩
  · rw [Bool.not_eq_true] at hping
    refine ⟨fun _ => ⟨?_, rfl⟩, fun ht => absurd ht (by rw [hping]; simp)⟩
    simp only [handleLine, hseq, hping, Bool.false_eq_true, if_false] at hok
    have hfin : ∀ (pre : List Reply) (eff : Effect) (au : Bool) (un : String),
        acksOf pre = [] →
        (Except.ok ⟨pre ++ ackList (some n), eff, au, un⟩ :
          Except Unit LineResult) = Except.ok res →
        acksOf res.replies = [Reply.ack n] := by
      intro pre eff au un hpre h
      rw [Except.ok.injEq] at h
      rw [← h]
      show acksOf (pre ++ ackList (some n)) = [Reply.ack n]
      rw [acksOf_append, hpre, List.nil_append]
      rfl
    rcases hgate : (if authed = true then some username else env.tryAuth body)
      with _ | u <;> simp only [hgate] at hok
    · exact hfin [] _ _ _ rfl hok
    · rcases hh : parse_hist body with e | ho
      · simp only [hh] at hok
        exact Except.noConfusion hok
      · cases ho with
        | some hreq =>
          cases hreq with
          | group n0 =>
            simp only [hh] at hok
            exact hfin _ _ _ _ (acksOf_histGroup_map room (env.histGroup n0)) hok
          | dm peer n0 =>
            simp only [hh] at hok
            exact hfin _ _ _ _ (acksOf_histDm_map peer (env.histDm peer n0)) hok
        | none =>
          simp only [hh] at hok
          rcases hau : parse_avatar_upload body with _ | ⟨fn, mime, b64⟩ <;>
            simp only [hau] at hok
          · rcases har : parse_avatar_req body with _ | ru <;>
              simp only [har] at hok
            · rcases hun : parse_unread body with _ | _ <;>
                simp only [hun, Bool.false_eq_true, if_false, if_true] at hok
              · rcases hrd : parse_read body with _ | rq
                · simp only [hrd] at hok
                  rcases hav : parse_avatar body with _ | fn <;>
                    simp only [hav] at hok
                  · rcases hdm : parse_dm body with _ | ⟨tg, pl⟩ <;>
                      simp only [hdm] at hok
                    · by_cases hmsg : pyStartsWith body "MSG " = true
                      · rw [if_pos hmsg] at hok
                        exact hfin [] _ _ _ rfl hok
                      · rw [if_neg hmsg] at hok
                        by_cases hpre : (pyStartsWith body "AVATAR_UPLOAD " = true ∨
                            pyStartsWith body "AVATAR_REQ " = true)
                        · rw [if_pos hpre] at hok
                          exact hfin [] _ _ _ rfl hok
                        · rw [if_neg hpre] at hok
                          exact hfin [] _ _ _ rfl hok
                    · exact hfin [] _ _ _ rfl hok
                  · exact hfin [] _ _ _ rfl hok
                · cases rq with
                  | group =>
                    simp only [hrd] at hok
                    exact hfin [] _ _ _ rfl hok
                  | dm peer =>
                    simp only [hrd] at hok
                    exact hfin [] _ _ _ rfl hok
              · exact hfin _ _ _ _ (acksOf_unread_map env.unreadAll) hok
            · rcases had : env.avatarData ru with _ | ⟨fn, mime, b64⟩ <;>
                simp only [had] at hok
              · exact hfin [] _ _ _ rfl hok
              · exact hfin [Reply.avatarData room ru fn mime b64] _ _ _ rfl hok
          · exact hfin [] _ _ _ rfl hok

/-- Concrete instantiation of the amended C6: an authenticated
`SEQ 5 MSG hi` gets exactly the reply `[ACK] 5`; an unauthenticated
`SEQ 7 MSG hi` is dropped but still acked; `SEQ 5 PING abc` gets its
`PONG` and no acknowledgement. -/
theorem seq_ack_exactly_once_witness :
    (acksOf (LineResult.replies ⟨[Reply.ack 5], Effect.broadcast "hi", true, "alice"⟩) =
      [Reply.ack 5]) ∧
    (acksOf (LineResult.replies ⟨[Reply.ack 7], Effect.none, false, "alice"⟩) =
      [Reply.ack 7]) ∧
    (LineResult.replies ⟨[Reply.pong "abc"], Effect.none, true, "alice"⟩ =
      [Reply.pong (pyDrop "PING abc" 5)]) := by
  have h1 := seq_ack_exactly_once envEmpty "世界" "alice" true "SEQ 5 MSG hi" 5
    "MSG hi" ⟨[Reply.ack 5], Effect.broadcast "hi", true, "alice"⟩ (by decide) rfl
  have h2 := seq_ack_exactly_once envEmpty "世界" "alice" false "SEQ 7 MSG hi" 7
    "MSG hi" ⟨[Reply.ack 7], Effect.none, false, "alice"⟩ (by decide) rfl
  have h3 := seq_ack_exactly_once envEmpty "世界" "alice" true "SEQ 5 PING abc" 5
    "PING abc" ⟨[Reply.pong "abc"], Effect.none, true, "alice"⟩ (by decide) rfl
  exact ⟨(h1.1 (by decide)).1, (h2.1 (by decide)).1, (h3.2 (by decide)).1⟩

/-- C6 as stated is false: the acknowledgement line written on the wire is
`[ACK] <n>`, not `ACK <n>` — for the accepted line `SEQ 5 MSG hi` the sole
reply renders to `[ACK] 5` — and a `SEQ`-wrapped `PING` (`SEQ 5 PING abc`)
is accepted yet acknowledged by no `ACK` reply at all. -/
theorem seq_ack_counterexample :
    handleLine envEmpty "世界" "alice" true "SEQ 5 MSG hi" =
      Except.ok ⟨[Reply.ack 5], Effect.broadcast "hi", true, "alice"⟩ ∧
    [Reply.ack 5].map renderReply = ["[ACK] 5"] ∧
    "[ACK] 5" ≠ "ACK 5" ∧
    handleLine envEmpty "世界" "alice" true "SEQ 5 PING abc" =
      Except.ok ⟨[Reply.pong "abc"], Effect.none, true, "alice"⟩ ∧
    acksOf [Reply.pong "abc"] = [] := by
  refine ⟨rfl, rfl, by decide, rfl, rfl⟩

/-- C7: in the `HELLO`-path read loop, a `PING 123` line (authenticated or
not) is answered by the same `PONG 123` line written twice, while the
implicit-join loop writes it once. -/
theorem hello_path_double_pong :
    handleLineHello envEmpty "世界" "alice" true "PING 123" =
      Except.ok ⟨[Reply.pong "123", Reply.pong "123"], Effect.none, true, "alice"⟩ ∧
    handleLineHello envEmpty "世界" "alice" false "PING 123" =
      Except.ok ⟨[Reply.pong "123", Reply.pong "123"], Effect.none, false, "alice"⟩ ∧
    handleLine envEmpty "世界" "alice" true "PING 123" =
      Except.ok ⟨[Reply.pong "123"], Effect.none, true, "alice"⟩ := by
  exact ⟨rfl, rfl, rfl⟩

/-- C8 (amended): on the implicit-join loop, a line matching no recognized
command is not ignored: unless it carries an `AVATAR_UPLOAD `/`AVATAR_REQ `
prefix (in which case it is dropped with no reply and no effect beyond the
pending ack), it is handled as a room broadcast of its whole body; the
pending `SEQ` envelope's `[ACK]` is emitted either way. -/
theorem unrecognized_line_routing (env : Env) (room username t : String)
    (res : LineResult)
    (hok : handleLine env room username true t = Except.ok res)
    (hping : pyStartsWith (parse_seq t).2 "PING " = false)
    (hhist : parse_hist (parse_seq t).2 = Except.ok none)
    (hau : parse_avatar_upload (parse_seq t).2 = none)
    (har : parse_avatar_req (parse_seq t).2 = none)
    (hun : parse_unread (parse_seq t).2 = false)
    (hrd : parse_read (parse_seq t).2 = none)
    (hav : parse_avatar (parse_seq t).2 = none)
    (hdm : parse_dm (parse_seq t).2 = none)
    (hmsg : pyStartsWith (parse_seq t).2 "MSG " = false) :
    ((pyStartsWith (parse_seq t).2 "AVATAR_UPLOAD " = true ∨
      pyStartsWith (parse_seq t).2 "AVATAR_REQ " = true) →
      res.replies = ackList (parse_seq t).1 ∧ res.effect = Effect.none) ∧
    (pyStartsWith (parse_seq t).2 "AVATAR_UPLOAD " = false →
      pyStartsWith (parse_seq t).2 "AVATAR_REQ " = false →
      res.replies = ackList (parse_seq t).1 ∧
      res.effect = Effect.broadcast (parse_seq t).2) := by
  simp only [handleLine, hping, Bool.false_eq_true, if_false, eq_self_iff_true,
    if_true, hhist, hau, har, hun, hrd, hav, hdm, hmsg] at hok
  constructor
  · intro hpre
    rw [if_pos hpre] at hok
    rw [Except.ok.injEq] at hok
    rw [← hok]
    exact ⟨rfl, rfl⟩
  · intro h1 h2
    rw [if_neg (by
      intro hc
      rcases hc with hc | hc
      · rw [h1] at hc
        exact Bool.false_ne_true hc
      · rw [h2] at hc
        exact Bool.false_ne_true hc)] at hok
    rw [Except.ok.injEq] at hok
    rw [← hok]
    exact ⟨rfl, rfl⟩

/-- Concrete instantiation of the amended C8: the unrecognized line
`FOOBAR xyz` is broadcast; the malformed line `AVATAR_UPLOAD x` is dropped
with no reply and no effect. -/
theorem unrecognized_line_routing_witness :
    (LineResult.effect ⟨[], Effect.broadcast "FOOBAR xyz", true, "alice"⟩ =
      Effect.broadcast "FOOBAR xyz") ∧
    (LineResult.replies ⟨[], Effect.none, true, "alice"⟩ = ackList none ∧
      LineResult.effect ⟨[], Effect.none, true, "alice"⟩ = Effect.none) := by
  have h1 := unrecognized_line_routing envEmpty "世界" "alice" "FOOBAR xyz"
    ⟨[], Effect.broadcast "FOOBAR xyz", true, "alice"⟩ rfl (by decide) (by decide)
    (by decide) (by decide) (by decide) (by decide) (by decide) (by decide) (by decide)
  have h2 := unrecognized_line_routing envEmpty "世界" "alice" "AVATAR_UPLOAD x"
    ⟨[], Effect.none, true, "alice"⟩ rfl (by decide) (by decide)
    (by decide) (by decide) (by decide) (by decide) (by decide) (by decide) (by decide)
  exact ⟨(h1.2 (by decide) (by decide)).2, h2.1 (Or.inl (by decide))⟩

/-- C8 as stated is false: the unrecognized line `FOOBAR xyz` is not
ignored — the handler broadcasts it, which in a two-member room writes the
line to the other member's connection, persists it under the group
conversation and increments the recipient's unread counter. -/
theorem unrecognized_line_counterexample :
    handleLine envEmpty "世界" "alice" true "FOOBAR xyz" =
      Except.ok ⟨[], Effect.broadcast "FOOBAR xyz", true, "alice"⟩ ∧
    (broadcast_text [(0, "alice"), (1, "bob")] "世界" 0 "alice" "FOOBAR xyz").writes =
      [(1, "alice> FOOBAR xyz\n")] ∧
    (broadcast_text [(0, "alice"), (1, "bob")] "世界" 0 "alice" "FOOBAR xyz").saved =
      some ("group:世界", "alice", "FOOBAR xyz") ∧
    (broadcast_text [(0, "alice"), (1, "bob")] "世界" 0 "alice"
      "FOOBAR xyz").unreadIncs = [("bob", "group:世界")] := by
  exact ⟨rfl, by decide, by decide, by decide⟩

/-- C10: the `NAME_CHECK` probe leaves the server state untouched, its
reply depends only on the registered-username set (never on live room
presence), it answers `NAME_TAKEN` exactly when the probed name is
registered and `NAME_OK` exactly otherwise, and the room argument plays no
part in which of the two is chosen. -/
theorem name_check_stateless (st : HubState) (addrName roomDefault first : String) :
    ((handleNameCheck st addrName roomDefault first).2 = st) ∧
    (∀ st' : HubState, st'.registered = st.registered →
      (handleNameCheck st' addrName roomDefault first).1 =
        (handleNameCheck st addrName roomDefault first).1) ∧
    (∀ (reg : List String) (r u : String),
      (nameCheckReply reg r u = "[SYS] NAME_TAKEN " ++ r ++ " " ++ u ↔ u ∈ reg) ∧
      (nameCheckReply reg r u = "[SYS] NAME_OK " ++ r ++ " " ++ u ↔ u ∉ reg)) ∧
    (∀ (reg : List String) (r r' u : String),
      (nameCheckReply reg r u = "[SYS] NAME_TAKEN " ++ r ++ " " ++ u ↔
        nameCheckReply reg r' u = "[SYS] NAME_TAKEN " ++ r' ++ " " ++ u)) := by
  have hiff : ∀ (reg : List String) (r u : String),
      (nameCheckReply reg r u = "[SYS] NAME_TAKEN " ++ r ++ " " ++ u ↔ u ∈ reg) ∧
      (nameCheckReply reg r u = "[SYS] NAME_OK " ++ r ++ " " ++ u ↔ u ∉ reg) := by
    intro reg r u
    unfold nameCheckReply
    by_cases hmem : u ∈ reg
    · rw [if_pos hmem]
      constructor
      · exact ⟨fun _ => hmem, fun _ => rfl⟩
      · constructor
        · intro he
          exact absurd he (append_ne_of_ne_at "[SYS] NAME_TAKEN " "[SYS] NAME_OK " 11
            (by decide) (by decide) (by decide) _ _)
        · intro hn
          exact absurd hmem hn
    · rw [if_neg hmem]
      constructor
      · constructor
        · intro he
          exact absurd he (append_ne_of_ne_at "[SYS] NAME_OK " "[SYS] NAME_TAKEN " 11
            (by decide) (by decide) (by decide) _ _)
        · intro hm
          exact absurd hm hmem
      · exact ⟨fun _ => hmem, fun _ => rfl⟩
  refine ⟨rfl, ?_, hiff, ?_⟩
  · intro st' hreg
    unfold handleNameCheck
    rw [hreg]
  · intro reg r r' u
    rw [(hiff reg r u).1, (hiff reg r' u).1]

/-- Concrete instantiation of C10: probing the registered name `bob`
answers `NAME_TAKEN` and leaves the state unchanged; the reply ignores
live room presence; probing the unregistered `carol` answers `NAME_OK`. -/
theorem name_check_stateless_witness :
    ((handleNameCheck ⟨[("世界", [(0, "alice")])], [], ["bob"]⟩ "1.2.3.4" "世界"
        "NAME_CHECK 世界 bob").2 = ⟨[("世界", [(0, "alice")])], [], ["bob"]⟩) ∧
    ((handleNameCheck ⟨[], [], ["bob"]⟩ "1.2.3.4" "世界" "NAME_CHECK 世界 bob").1 =
      (handleNameCheck ⟨[("世界", [(0, "alice")])], [], ["bob"]⟩ "1.2.3.4" "世界"
        "NAME_CHECK 世界 bob").1) ∧
    nameCheckReply ["bob"] "世界" "bob" = "[SYS] NAME_TAKEN " ++ "世界" ++ " " ++ "bob" ∧
    nameCheckReply ["bob"] "世界" "carol" = "[SYS] NAME_OK " ++ "世界" ++ " " ++ "carol" := by
  have h := name_check_stateless ⟨[("世界", [(0, "alice")])], [], ["bob"]⟩
    "1.2.3.4" "世界" "NAME_CHECK 世界 bob"
  refine ⟨h.1, h.2.1 ⟨[], [], ["bob"]⟩ rfl, ?_, ?_⟩
  · exact ((h.2.2.1 ["bob"] "世界" "bob").1).mpr (by decide)
  · exact ((h.2.2.1 ["bob"] "世界" "carol").2).mpr (by decide)

end XiaoCai
